import Mathlib

/-
  Verification development for the HW4_MyGrep repository (src/mygrep.py).

  The Python module manipulates NFAs whose transition function `delta` is a
  dictionary from (state, symbol) pairs to sets of states, where the symbol
  `None` marks a lambda (epsilon) transition.  States are opaque identifiers.

  Shallow embedding choices:
  * states are an arbitrary type `S` with decidable equality (Python strings);
  * symbols are `Option A` with `none` playing the role of Python's `None`;
  * a Python dictionary `delta` is a `TransMap`: a finite set of present keys
    (`dom`) together with a value function that is `∅` off `dom`, so that
    `val k` coincides with the idiom `delta[k] if k in delta else set()`
    used throughout the source, while `dom` retains exact key membership
    (needed because the source tests `(p, c) in delta` and deletes keys);
  * Python lists/strings are Lean lists; the `while` loop of
    `get_reachable_lambdas` is a fuel-indexed recursion (`none` = fuel ran
    out, which we prove never happens for the fuel actually supplied);
  * a Python runtime error (IndexError) is modelled by `Option.none` in the
    functions that can raise one.
-/

set_option linter.unusedSectionVars false

namespace MyGrep

/- States are Python strings, which carry a (computable) linear order; we keep
the state type abstract but assume a linear order so that iterating over a
Python set (`Finset.sort`) stays executable.  Only decidable equality is ever
used semantically. -/
variable {S A : Type} [LinearOrder S] [DecidableEq A]

/-- A Python dictionary `(state, symbol) -> set(states)`.  `dom` is the set of
keys present in the dictionary; `val` returns the stored set on keys of `dom`
and `∅` elsewhere (the source always guards lookups with `k in delta`, and a
missing key behaves as "no transition"). -/
structure TransMap (S A : Type) where
  dom : Finset (S × Option A)
  val : S × Option A → Finset S
  val_empty : ∀ k, k ∉ dom → val k = ∅

/-- Build a `TransMap` from an explicit key/value list (used to write down
concrete automata; duplicate keys union their values, matching how such a
dictionary would be assembled by repeated `update`s). -/
def TransMap.ofList (l : List ((S × Option A) × Finset S)) : TransMap S A where
  dom := (l.map Prod.fst).toFinset
  val := fun k => (l.filter fun e => e.1 = k).foldr (fun e acc => e.2 ∪ acc) ∅
  val_empty := by
    intro k hk
    have hfilter : (l.filter fun e => e.1 = k) = [] := by
      apply List.filter_eq_nil_iff.mpr
      intro e he
      simp only [List.mem_toFinset, List.mem_map] at hk
      intro hek
      exact hk ⟨e, he, by simpa using hek⟩
    simp only [hfilter]
    rfl

omit [LinearOrder S] [DecidableEq A] in
theorem TransMap.ext_core {m m' : TransMap S A} (hdom : m.dom = m'.dom)
    (hval : m.val = m'.val) : m = m' := by
  cases m; cases m'; cases hdom; cases hval; rfl

/-! ### `eval_nfa` (src/mygrep.py lines 1-32)

The evaluator tracks the set of currently active states.  For each input
character it takes the union of `delta[(p, c)]` over active states `p` having
that key.  The `verbose` flag only appends the intermediate active sets to a
printed trace; we model the printing as the second component of the result. -/

/-- One step of the subset simulation: the body of `for c in s`.
Mirrors `if (p, c) in delta: next_states = next_states.union(delta[(p, c)])`. -/
def nfaStep (delta : TransMap S A) (states : Finset S) (c : A) : Finset S :=
  states.biUnion fun p => if (p, some c) ∈ delta.dom then delta.val (p, some c) else ∅

/-- The active-state set after consuming the whole input. -/
def evalActive (delta : TransMap S A) (states : Finset S) (s : List A) : Finset S :=
  s.foldl (nfaStep delta) states

/-- `eval_nfa(s, q, delta, F, verbose)`.  First component: the returned
boolean `len(states.intersection(F)) > 0`.  Second component: the list of
active-state sets printed when `verbose` is true (the `print` calls). -/
def eval_nfa (s : List A) (q : S) (delta : TransMap S A) (F : Finset S)
    (verbose : Bool) : Bool × List (Finset S) :=
  let init : Finset S := {q}
  let fin := s.foldl
    (fun (p : Finset S × List (Finset S)) c =>
      let ns := nfaStep delta p.1 c
      (ns, if verbose then p.2 ++ [ns] else p.2))
    (init, if verbose then [init] else [])
  (decide (0 < (fin.1 ∩ F).card), fin.2)

/-- The first component of the traced fold is the plain fold: the trace
bookkeeping never feeds back into the active-state set. -/
theorem eval_fold_fst (delta : TransMap S A) (s : List A) (verbose : Bool) :
    ∀ (st : Finset S) (lg : List (Finset S)),
      (s.foldl
        (fun (p : Finset S × List (Finset S)) c =>
          let ns := nfaStep delta p.1 c
          (ns, if verbose then p.2 ++ [ns] else p.2))
        (st, lg)).1 = evalActive delta st s := by
  induction s with
  | nil => intro st lg; rfl
  | cons c cs ih =>
      intro st lg
      simpa [evalActive, List.foldl_cons] using ih (nfaStep delta st c) _

theorem eval_nfa_fst (s : List A) (q : S) (delta : TransMap S A) (F : Finset S)
    (verbose : Bool) :
    (eval_nfa s q delta F verbose).1
      = decide (0 < ((evalActive delta {q} s) ∩ F).card) := by
  simp only [eval_nfa]
  rw [eval_fold_fst]

/-- The membership guard in `nfaStep` is redundant for the value computed:
missing keys hold `∅`. -/
theorem nfaStep_eq_biUnion (delta : TransMap S A) (states : Finset S) (c : A) :
    nfaStep delta states c = states.biUnion fun p => delta.val (p, some c) := by
  unfold nfaStep
  apply Finset.biUnion_congr rfl
  intro p _
  by_cases h : (p, some c) ∈ delta.dom
  · rw [if_pos h]
  · rw [if_neg h, delta.val_empty _ h]

theorem mem_nfaStep (delta : TransMap S A) (states : Finset S) (c : A) (y : S) :
    y ∈ nfaStep delta states c ↔ ∃ p ∈ states, y ∈ delta.val (p, some c) := by
  rw [nfaStep_eq_biUnion]
  simp [Finset.mem_biUnion]

theorem evalActive_empty (delta : TransMap S A) (s : List A) :
    evalActive delta (∅ : Finset S) s = ∅ := by
  induction s with
  | nil => rfl
  | cons c cs ih =>
      have hstep : nfaStep delta (∅ : Finset S) c = ∅ := by
        rw [nfaStep_eq_biUnion]; exact Finset.biUnion_empty
      simpa [evalActive, List.foldl_cons, hstep] using ih

/-! ### `get_reachable_lambdas` (src/mygrep.py lines 35-66)

The source runs a depth-first worklist: pop a state, add it to `reachable`,
push every lambda-neighbour not yet in `reachable`, and finally remove the
start state from the result.  We embed the `while` loop as a fuel-indexed
recursion (`none` = out of fuel) and prove that the fuel actually supplied
always suffices, which is the cycle-safety/termination property. -/

/-- The lambda-edge relation of `delta`: `b ∈ delta[(a, None)]`. -/
def EpsEdge (delta : TransMap S A) (a b : S) : Prop := b ∈ delta.val (a, none)

/-- One-or-more-lambda-steps reachability. -/
abbrev EpsReachPlus (delta : TransMap S A) : S → S → Prop :=
  Relation.TransGen (EpsEdge delta)

/-- Zero-or-more-lambda-steps reachability. -/
abbrev EpsReach (delta : TransMap S A) : S → S → Prop :=
  Relation.ReflTransGen (EpsEdge delta)

/-- The `while len(stack) > 0` loop of `get_reachable_lambdas`.  The body pops
`state`, does `reachable.add(state)`, and pushes the lambda-neighbours that
are not yet in `reachable` (the membership guard `(state, None) in delta` is
subsumed by `val` being `∅` off `dom`).  `Finset.sort` fixes a concrete
push order standing in for Python's arbitrary set-iteration order; all
downstream facts are order-independent. -/
def lambdaLoop (delta : TransMap S A) : Nat → Finset S → List S → Option (Finset S)
  | _, reachable, [] => some reachable
  | 0, _, _ :: _ => none
  | fuel + 1, reachable, state :: stack =>
      let reachable' := insert state reachable
      lambdaLoop delta fuel reachable'
        (((delta.val (state, none) \ reachable').sort (· ≤ ·)) ++ stack)

theorem lambdaLoop_nil (delta : TransMap S A) (fuel : Nat) (R : Finset S) :
    lambdaLoop delta fuel R [] = some R := by
  cases fuel <;> rfl

theorem lambdaLoop_cons (delta : TransMap S A) (fuel : Nat) (R : Finset S)
    (x : S) (stack : List S) :
    lambdaLoop delta (fuel + 1) R (x :: stack)
      = lambdaLoop delta fuel (insert x R)
          (((delta.val (x, none) \ insert x R).sort (· ≤ ·)) ++ stack) := rfl

/-- Every state the loop can ever touch: the start state, the source states of
`delta`'s keys and all destination states. -/
def lambdaUniv (delta : TransMap S A) (start : S) : Finset S :=
  insert start ((delta.dom.image Prod.fst) ∪ delta.dom.biUnion fun k => delta.val k)

/-- Fuel that provably suffices for the worklist loop. -/
def lambdaFuel (delta : TransMap S A) (start : S) : Nat :=
  ((lambdaUniv delta start).card + 1) * ((lambdaUniv delta start).card + 1)

/-- `get_reachable_lambdas(start, delta)`: run the loop, then
`reachable.remove(start)` (the start state is always present at that point,
so the Python `remove` cannot raise). -/
def get_reachable_lambdas (start : S) (delta : TransMap S A) : Finset S :=
  ((lambdaLoop delta (lambdaFuel delta start) ∅ [start]).getD ∅).erase start

theorem val_subset_lambdaUniv (delta : TransMap S A) (start : S) (k : S × Option A) :
    delta.val k ⊆ lambdaUniv delta start := by
  intro y hy
  by_cases hk : k ∈ delta.dom
  · unfold lambdaUniv
    apply Finset.mem_insert_of_mem
    apply Finset.mem_union_right
    exact Finset.mem_biUnion.mpr ⟨k, hk, hy⟩
  · rw [delta.val_empty k hk] at hy
    exact absurd hy (Finset.not_mem_empty y)

/-- Stack-discipline invariant of the loop: whenever an already-visited state
sits on the stack, all its lambda-neighbours are visited or strictly above it.
This is what makes a pop of a visited state push nothing. -/
def StackOrd (delta : TransMap S A) (R : Finset S) : Finset S → List S → Prop
  | _, [] => True
  | acc, x :: rest =>
      (x ∈ R → delta.val (x, none) ⊆ R ∪ acc) ∧ StackOrd delta R (insert x acc) rest

theorem stackOrd_mono {delta : TransMap S A} {R R' acc acc' : Finset S} :
    ∀ {st : List S}, StackOrd delta R acc st → R ⊆ R' → acc ⊆ R' ∪ acc' →
      (∀ y, y ∈ R' → y ∉ R → delta.val (y, none) ⊆ R' ∪ acc') →
      StackOrd delta R' acc' st := by
  intro st
  induction st generalizing acc acc' with
  | nil => intro _ _ _ _; trivial
  | cons z rest ih =>
      intro h hR hacc hnew
      obtain ⟨h1, h2⟩ := h
      refine ⟨?_, ?_⟩
      · intro hz
        by_cases hzR : z ∈ R
        · intro w hw
          rcases Finset.mem_union.mp (h1 hzR hw) with hwR | hwa
          · exact Finset.mem_union_left _ (hR hwR)
          · exact hacc hwa
        · exact hnew z hz hzR
      · refine ih h2 hR ?_ ?_
        · intro w hw
          rcases Finset.mem_insert.mp hw with rfl | hw'
          · exact Finset.mem_union_right _ (Finset.mem_insert_self _ _)
          · rcases Finset.mem_union.mp (hacc hw') with hwR | hwa
            · exact Finset.mem_union_left _ hwR
            · exact Finset.mem_union_right _ (Finset.mem_insert_of_mem hwa)
        · intro y hy hy' w hw
          rcases Finset.mem_union.mp (hnew y hy hy' hw) with hwR | hwa
          · exact Finset.mem_union_left _ hwR
          · exact Finset.mem_union_right _ (Finset.mem_insert_of_mem hwa)

theorem stackOrd_of_not_mem {delta : TransMap S A} {R : Finset S} :
    ∀ (l : List S) (acc : Finset S), (∀ x ∈ l, x ∉ R) → StackOrd delta R acc l := by
  intro l
  induction l with
  | nil => intro _ _; trivial
  | cons z rest ih =>
      intro acc h
      exact ⟨fun hz => absurd hz (h z (List.mem_cons_self _ _)),
        ih _ fun x hx => h x (List.mem_cons_of_mem _ hx)⟩

theorem mem_foldl_insert : ∀ (l : List S) (acc : Finset S) (y : S),
    y ∈ l ∨ y ∈ acc → y ∈ l.foldl (fun a x => insert x a) acc := by
  intro l
  induction l with
  | nil => intro acc y h; simpa using h
  | cons z rest ih =>
      intro acc y h
      simp only [List.foldl_cons]
      apply ih
      rcases h with h | h
      · rcases List.mem_cons.mp h with rfl | h'
        · exact Or.inr (Finset.mem_insert_self _ _)
        · exact Or.inl h'
      · exact Or.inr (Finset.mem_insert_of_mem h)

theorem stackOrd_append {delta : TransMap S A} {R : Finset S} :
    ∀ (l1 l2 : List S) (acc : Finset S), StackOrd delta R acc l1 →
      StackOrd delta R (l1.foldl (fun a x => insert x a) acc) l2 →
      StackOrd delta R acc (l1 ++ l2) := by
  intro l1
  induction l1 with
  | nil => intro l2 acc _ h2; exact h2
  | cons z rest ih =>
      intro l2 acc h1 h2
      obtain ⟨hz, hrest⟩ := h1
      exact ⟨hz, ih l2 (insert z acc) hrest h2⟩

/-- Preservation of the stack invariant across one loop iteration. -/
theorem stackOrd_step {delta : TransMap S A} {R : Finset S} {x : S} {stack : List S}
    (h : StackOrd delta R ∅ (x :: stack)) :
    StackOrd delta (insert x R) ∅
      (((delta.val (x, none) \ insert x R).sort (· ≤ ·)) ++ stack) := by
  obtain ⟨_, h2⟩ := h
  apply stackOrd_append
  · apply stackOrd_of_not_mem
    intro y hy
    exact (Finset.mem_sdiff.mp ((Finset.mem_sort _).mp hy)).2
  · refine stackOrd_mono h2 (Finset.subset_insert _ _) ?_ ?_
    · intro w hw
      rcases Finset.mem_insert.mp hw with rfl | hw'
      · exact Finset.mem_union_left _ (Finset.mem_insert_self _ _)
      · exact absurd hw' (Finset.not_mem_empty w)
    · intro y hy hy' w hw
      have hyx : y = x := by
        rcases Finset.mem_insert.mp hy with rfl | hyR
        · rfl
        · exact absurd hyR hy'
      subst hyx
      by_cases hw' : w ∈ insert y R
      · exact Finset.mem_union_left _ hw'
      · apply Finset.mem_union_right
        apply mem_foldl_insert
        exact Or.inl ((Finset.mem_sort _).mpr (Finset.mem_sdiff.mpr ⟨hw, hw'⟩))

/-- Termination of the worklist: the supplied fuel never runs out.  The
measure is `|U \ reachable| * (|U| + 1) + |stack|`; a pop of an unvisited
state trades one unit of the first summand for at most `|U|` pushed states,
and a pop of a visited state pushes nothing thanks to `StackOrd`. -/
theorem lambdaLoop_isSome {delta : TransMap S A} (U : Finset S)
    (hU : ∀ p, delta.val (p, none) ⊆ U) :
    ∀ (fuel : Nat) (R : Finset S) (st : List S),
      StackOrd delta R ∅ st → R ⊆ U → (∀ x ∈ st, x ∈ U) →
      (U \ R).card * (U.card + 1) + st.length < fuel →
      (lambdaLoop delta fuel R st).isSome := by
  intro fuel
  induction fuel with
  | zero => intro R st _ _ _ hm; exact absurd hm (Nat.not_lt_zero _)
  | succ n ih =>
      intro R st hso hRU hstU hm
      match st with
      | [] => rw [lambdaLoop_nil]; rfl
      | x :: stack =>
          have hxU : x ∈ U := hstU x (List.mem_cons_self _ _)
          rw [lambdaLoop_cons]
          have hso' := stackOrd_step hso
          have hRU' : insert x R ⊆ U := Finset.insert_subset hxU hRU
          have hstU' : ∀ y ∈ ((delta.val (x, none) \ insert x R).sort (· ≤ ·)) ++ stack,
              y ∈ U := by
            intro y hy
            rcases List.mem_append.mp hy with hy' | hy'
            · exact hU x (Finset.mem_sdiff.mp ((Finset.mem_sort _).mp hy')).1
            · exact hstU y (List.mem_cons_of_mem _ hy')
          apply ih _ _ hso' hRU' hstU'
          by_cases hx : x ∈ R
          · -- visited pop: `StackOrd` head says the neighbours are all visited
            have hval : delta.val (x, none) ⊆ R := by
              intro w hw
              rcases Finset.mem_union.mp (hso.1 hx hw) with hwR | hwa
              · exact hwR
              · exact absurd hwa (Finset.not_mem_empty w)
            have hN : delta.val (x, none) \ insert x R = ∅ := by
              apply Finset.sdiff_eq_empty_iff_subset.mpr
              exact hval.trans (Finset.subset_insert _ _)
            have hR' : insert x R = R := Finset.insert_eq_self.mpr hx
            rw [hN, hR']
            simp only [Finset.sort_empty, List.nil_append, List.length_cons] at hm ⊢
            omega
          · -- fresh pop: the unvisited count drops by one
            have hx' : x ∈ U \ R := Finset.mem_sdiff.mpr ⟨hxU, hx⟩
            have hsd : U \ insert x R = (U \ R).erase x := by
              ext y
              simp only [Finset.mem_sdiff, Finset.mem_erase, Finset.mem_insert]
              tauto
            have hc : (U \ insert x R).card + 1 = (U \ R).card := by
              rw [hsd]
              exact Finset.card_erase_add_one hx'
            have hNcard : (delta.val (x, none) \ insert x R).card ≤ U.card :=
              Finset.card_le_card (Finset.Subset.trans (Finset.sdiff_subset) (hU x))
            have hmul : ((U \ insert x R).card + 1) * (U.card + 1)
                = (U \ insert x R).card * (U.card + 1) + (U.card + 1) :=
              Nat.succ_mul _ _
            rw [hc] at hmul
            simp only [List.length_append, Finset.length_sort, List.length_cons] at hm ⊢
            omega

theorem lambdaLoop_start_isSome (delta : TransMap S A) (start : S) :
    (lambdaLoop delta (lambdaFuel delta start) ∅ [start]).isSome := by
  have hstart : start ∈ lambdaUniv delta start := Finset.mem_insert_self _ _
  apply lambdaLoop_isSome (lambdaUniv delta start)
    (fun p => val_subset_lambdaUniv delta start (p, none))
  · exact ⟨fun h => absurd h (Finset.not_mem_empty _), trivial⟩
  · exact Finset.empty_subset _
  · intro x hx
    rcases List.mem_singleton.mp hx with rfl
    exact hstart
  · have hcard : 0 < (lambdaUniv delta start).card := Finset.card_pos.mpr ⟨start, hstart⟩
    unfold lambdaFuel
    have : (lambdaUniv delta start \ ∅).card = (lambdaUniv delta start).card := by
      rw [Finset.sdiff_empty]
    rw [this, List.length_singleton]
    have hmul : ((lambdaUniv delta start).card + 1) * ((lambdaUniv delta start).card + 1)
        = (lambdaUniv delta start).card * ((lambdaUniv delta start).card + 1)
          + ((lambdaUniv delta start).card + 1) :=
      Nat.succ_mul _ _
    omega

/-- Anything in `reachable` or on the stack ends up in the result. -/
theorem lambdaLoop_some_subset {delta : TransMap S A} :
    ∀ (fuel : Nat) (R : Finset S) (st : List S) (Res : Finset S),
      lambdaLoop delta fuel R st = some Res → R ⊆ Res ∧ ∀ x ∈ st, x ∈ Res := by
  intro fuel
  induction fuel with
  | zero =>
      intro R st Res h
      match st with
      | [] =>
          rw [lambdaLoop_nil, Option.some.injEq] at h
          subst h
          exact ⟨Finset.Subset.refl _, by intro x hx; cases hx⟩
      | x :: stack => cases h
  | succ n ih =>
      intro R st Res h
      match st with
      | [] =>
          rw [lambdaLoop_nil, Option.some.injEq] at h
          subst h
          exact ⟨Finset.Subset.refl _, by intro x hx; cases hx⟩
      | x :: stack =>
          rw [lambdaLoop_cons] at h
          obtain ⟨h1, h2⟩ := ih _ _ _ h
          refine ⟨(Finset.subset_insert _ _).trans h1, ?_⟩
          intro y hy
          rcases List.mem_cons.mp hy with rfl | hy'
          · exact h1 (Finset.mem_insert_self _ _)
          · exact h2 y (List.mem_append_right _ hy')

/-- If every visited state has its lambda-neighbours inside
`reachable ∪ stack`, the final result is lambda-closed. -/
theorem lambdaLoop_some_closed {delta : TransMap S A} :
    ∀ (fuel : Nat) (R : Finset S) (st : List S) (Res : Finset S),
      lambdaLoop delta fuel R st = some Res →
      (∀ y ∈ R, ∀ z ∈ delta.val (y, none), z ∈ R ∨ z ∈ st) →
      ∀ y ∈ Res, ∀ z ∈ delta.val (y, none), z ∈ Res := by
  intro fuel
  induction fuel with
  | zero =>
      intro R st Res h hcl
      match st with
      | [] =>
          rw [lambdaLoop_nil, Option.some.injEq] at h
          subst h
          intro y hy z hz
          rcases hcl y hy z hz with h' | h'
          · exact h'
          · cases h'
      | x :: stack => cases h
  | succ n ih =>
      intro R st Res h hcl
      match st with
      | [] =>
          rw [lambdaLoop_nil, Option.some.injEq] at h
          subst h
          intro y hy z hz
          rcases hcl y hy z hz with h' | h'
          · exact h'
          · cases h'
      | x :: stack =>
          rw [lambdaLoop_cons] at h
          apply ih _ _ _ h
          intro y hy z hz
          rcases Finset.mem_insert.mp hy with rfl | hyR
          · by_cases hzR : z ∈ insert y R
            · exact Or.inl hzR
            · refine Or.inr (List.mem_append_left _ ?_)
              exact (Finset.mem_sort _).mpr (Finset.mem_sdiff.mpr ⟨hz, hzR⟩)
          · rcases hcl y hyR z hz with h' | h'
            · exact Or.inl (Finset.mem_insert_of_mem h')
            · rcases List.mem_cons.mp h' with rfl | h''
              · exact Or.inl (Finset.mem_insert_self _ _)
              · exact Or.inr (List.mem_append_right _ h'')

/-- Everything in the result was reachable from the seeds: any property that
holds on `reachable ∪ stack` and is preserved along lambda edges holds on the
result. -/
theorem lambdaLoop_some_sound {delta : TransMap S A} (P : S → Prop)
    (hP : ∀ a b, P a → EpsEdge delta a b → P b) :
    ∀ (fuel : Nat) (R : Finset S) (st : List S) (Res : Finset S),
      lambdaLoop delta fuel R st = some Res →
      (∀ y ∈ R, P y) → (∀ y ∈ st, P y) → ∀ y ∈ Res, P y := by
  intro fuel
  induction fuel with
  | zero =>
      intro R st Res h hR hst
      match st with
      | [] =>
          rw [lambdaLoop_nil, Option.some.injEq] at h
          subst h
          exact hR
      | x :: stack => cases h
  | succ n ih =>
      intro R st Res h hR hst
      match st with
      | [] =>
          rw [lambdaLoop_nil, Option.some.injEq] at h
          subst h
          exact hR
      | x :: stack =>
          rw [lambdaLoop_cons] at h
          have hx : P x := hst x (List.mem_cons_self _ _)
          apply ih _ _ _ h
          · intro y hy
            rcases Finset.mem_insert.mp hy with rfl | hyR
            · exact hx
            · exact hR y hyR
          · intro y hy
            rcases List.mem_append.mp hy with hy' | hy'
            · have := Finset.mem_sdiff.mp ((Finset.mem_sort _).mp hy')
              exact hP x y hx this.1
            · exact hst y (List.mem_cons_of_mem _ hy')

/-- The successful run from `{start}` computes exactly the zero-or-more-step
lambda closure of `start`. -/
theorem lambdaLoop_start_spec (delta : TransMap S A) (start : S) (Res : Finset S)
    (h : lambdaLoop delta (lambdaFuel delta start) ∅ [start] = some Res) :
    ∀ y, y ∈ Res ↔ EpsReach delta start y := by
  intro y
  constructor
  · intro hy
    refine lambdaLoop_some_sound (EpsReach delta start)
      (fun a b ha hab => Relation.ReflTransGen.tail ha hab) _ _ _ _ h ?_ ?_ y hy
    · intro z hz; cases hz
    · intro z hz
      rcases List.mem_singleton.mp hz with rfl
      exact Relation.ReflTransGen.refl
  · intro hy
    have hsub := lambdaLoop_some_subset _ _ _ _ h
    have hclosed := lambdaLoop_some_closed _ _ _ _ h
      (by intro z hz; cases hz)
    induction hy with
    | refl => exact hsub.2 start (List.mem_singleton_self _)
    | tail _ hedge ihy => exact hclosed _ ihy _ hedge

/-- Membership characterization of `get_reachable_lambdas`: the states
reachable by one or more lambda arrows, with the start state removed. -/
theorem mem_get_reachable (delta : TransMap S A) (start y : S) :
    y ∈ get_reachable_lambdas start delta
      ↔ (EpsReachPlus delta start y ∧ y ≠ start) := by
  obtain ⟨Res, hRes⟩ :=
    Option.isSome_iff_exists.mp (lambdaLoop_start_isSome delta start)
  have hspec := lambdaLoop_start_spec delta start Res hRes
  unfold get_reachable_lambdas
  rw [hRes]
  simp only [Option.getD_some, Finset.mem_erase]
  rw [hspec y]
  constructor
  · rintro ⟨hne, hr⟩
    rcases Relation.reflTransGen_iff_eq_or_transGen.mp hr with rfl | ht
    · exact absurd rfl hne
    · exact ⟨ht, hne⟩
  · rintro ⟨ht, hne⟩
    exact ⟨hne, Relation.reflTransGen_iff_eq_or_transGen.mpr (Or.inr ht)⟩

/-! ### `reduce_nfa_lambdas` (src/mygrep.py lines 69-118)

Fidelity notes for the functional embedding below:
* Step 1 of the source builds `delta_state`, a per-state reindexing of
  `delta`; since dictionary keys are unique, `delta_state[s][c]` is exactly
  `delta[(s, c)]`, so the reindexed copy needs no separate model.
* The source mutates `delta` while looping over the snapshot
  `states = {key[0] for key in delta}` taken before the loop, but the loop
  body only ever adds keys with a non-`None` symbol, and
  `get_reachable_lambdas` reads only `(state, None)` keys; hence every
  closure computed inside the loop coincides with the closure of the original
  `delta`, the per-state contributions are unions, and the cumulative effect
  is the order-independent map written here.
* Step 3 deletes exactly the keys with symbol `None`; step 2 never adds such
  a key. -/

/-- `states = set([key[0] for key in delta])`. -/
def reduceStates (delta : TransMap S A) : Finset S := delta.dom.image Prod.fst

/-- `F_new`: the snapshot states whose lambda-closure meets `F`. -/
def reduceFNew (delta : TransMap S A) (F : Finset S) : Finset S :=
  (reduceStates delta).filter fun st =>
    0 < ((get_reachable_lambdas st delta) ∩ F).card

/-- The keys created by `delta[(state, c)] = set([])` in step 2: a pair
`(state, c)` such that some lambda-reachable `other` has an outgoing
non-lambda key `(other, c)`. -/
def reduceAdded (delta : TransMap S A) : Finset (S × Option A) :=
  (reduceStates delta).biUnion fun st =>
    (get_reachable_lambdas st delta).biUnion fun other =>
      (delta.dom.filter fun k => k.1 = other ∧ k.2 ≠ none).image fun k => (st, k.2)

/-- Keys of the dictionary after the call: original and added keys, minus the
lambda keys deleted in step 3. -/
def reduceDom (delta : TransMap S A) : Finset (S × Option A) :=
  (delta.dom ∪ reduceAdded delta).filter fun k => k.2 ≠ none

/-- Values after the call: the original arrows united with the arrows of all
lambda-reachable states on the same symbol. -/
def reduceVal (delta : TransMap S A) : S × Option A → Finset S := fun k =>
  if k ∈ reduceDom delta then
    delta.val k ∪ (get_reachable_lambdas k.1 delta).biUnion fun t => delta.val (t, k.2)
  else ∅

/-- `reduce_nfa_lambdas(delta, F)`: the source mutates its arguments in
place; the embedding returns the pair (new `delta`, new `F`). -/
def reduce_nfa_lambdas (delta : TransMap S A) (F : Finset S) :
    TransMap S A × Finset S :=
  (⟨reduceDom delta, reduceVal delta,
      fun k hk => by rw [reduceVal, if_neg hk]⟩,
    F ∪ reduceFNew delta F)

/-- A state with an outgoing lambda edge is a source state of `delta`. -/
theorem epsEdge_source_mem {delta : TransMap S A} {p b : S} (h : EpsEdge delta p b) :
    p ∈ reduceStates delta := by
  have hdom : (p, (none : Option A)) ∈ delta.dom := by
    by_contra hc
    rw [EpsEdge, delta.val_empty _ hc] at h
    exact absurd h (Finset.not_mem_empty b)
  exact Finset.mem_image.mpr ⟨(p, none), hdom, rfl⟩

theorem epsReachPlus_source_mem {delta : TransMap S A} {p t : S}
    (h : EpsReachPlus delta p t) : p ∈ reduceStates delta := by
  obtain ⟨b, hb, -⟩ := Relation.TransGen.head'_iff.mp h
  exact epsEdge_source_mem hb

/-- A non-`None` value of the reduced map is reached through the reflexive
lambda closure: `delta'[(p, c)] = ⋃ { delta[(t, c)] | p ⇒λ* t }`. -/
theorem mem_reduceVal (delta : TransMap S A) (p : S) (c : A) (y : S) :
    y ∈ reduceVal delta (p, some c)
      ↔ ∃ t, EpsReach delta p t ∧ y ∈ delta.val (t, some c) := by
  unfold reduceVal
  by_cases hd : ((p, some c) : S × Option A) ∈ reduceDom delta
  · rw [if_pos hd]
    constructor
    · intro hy
      rcases Finset.mem_union.mp hy with hy' | hy'
      · exact ⟨p, Relation.ReflTransGen.refl, hy'⟩
      · obtain ⟨t, ht, hyt⟩ := Finset.mem_biUnion.mp hy'
        obtain ⟨htg, -⟩ := (mem_get_reachable delta p t).mp ht
        exact ⟨t, Relation.reflTransGen_iff_eq_or_transGen.mpr (Or.inr htg), hyt⟩
    · rintro ⟨t, hre, hy⟩
      rcases Relation.reflTransGen_iff_eq_or_transGen.mp hre with rfl | htg
      · exact Finset.mem_union_left _ hy
      · by_cases hpt : t = p
        · subst hpt; exact Finset.mem_union_left _ hy
        · refine Finset.mem_union_right _ (Finset.mem_biUnion.mpr ⟨t, ?_, hy⟩)
          exact (mem_get_reachable delta p t).mpr ⟨htg, hpt⟩
  · rw [if_neg hd]
    constructor
    · intro hy; exact absurd hy (Finset.not_mem_empty y)
    · rintro ⟨t, hre, hy⟩
      exfalso
      have hdomt : ((t, some c) : S × Option A) ∈ delta.dom := by
        by_contra hc
        rw [delta.val_empty _ hc] at hy
        exact absurd hy (Finset.not_mem_empty y)
      apply hd
      unfold reduceDom
      refine Finset.mem_filter.mpr ⟨?_, by simp⟩
      rcases Relation.reflTransGen_iff_eq_or_transGen.mp hre with rfl | htg
      · exact Finset.mem_union_left _ hdomt
      · by_cases hpt : t = p
        · subst hpt; exact Finset.mem_union_left _ hdomt
        · apply Finset.mem_union_right
          unfold reduceAdded
          refine Finset.mem_biUnion.mpr ⟨p, epsReachPlus_source_mem htg, ?_⟩
          refine Finset.mem_biUnion.mpr
            ⟨t, (mem_get_reachable delta p t).mpr ⟨htg, hpt⟩, ?_⟩
          refine Finset.mem_image.mpr ⟨(t, some c), ?_, rfl⟩
          exact Finset.mem_filter.mpr ⟨hdomt, rfl, by simp⟩

/-- All lambda keys are gone after the reduction. -/
theorem reduceVal_none (delta : TransMap S A) (p : S) :
    reduceVal delta (p, none) = ∅ := by
  unfold reduceVal
  rw [if_neg]
  intro hc
  exact absurd rfl (Finset.mem_filter.mp hc).2

/-- The accept set after the call: states whose reflexive lambda closure
meets the original `F`. -/
theorem mem_reduceF (delta : TransMap S A) (F : Finset S) (p : S) :
    p ∈ F ∪ reduceFNew delta F ↔ ∃ t, EpsReach delta p t ∧ t ∈ F := by
  constructor
  · intro hp
    rcases Finset.mem_union.mp hp with hp' | hp'
    · exact ⟨p, Relation.ReflTransGen.refl, hp'⟩
    · obtain ⟨-, hcard⟩ := Finset.mem_filter.mp hp'
      obtain ⟨t, ht⟩ := Finset.card_pos.mp hcard
      obtain ⟨htr, htF⟩ := Finset.mem_inter.mp ht
      obtain ⟨htg, -⟩ := (mem_get_reachable delta p t).mp htr
      exact ⟨t, Relation.reflTransGen_iff_eq_or_transGen.mpr (Or.inr htg), htF⟩
  · rintro ⟨t, hre, htF⟩
    rcases Relation.reflTransGen_iff_eq_or_transGen.mp hre with rfl | htg
    · exact Finset.mem_union_left _ htF
    · by_cases hpt : t = p
      · subst hpt; exact Finset.mem_union_left _ htF
      · apply Finset.mem_union_right
        refine Finset.mem_filter.mpr ⟨epsReachPlus_source_mem htg, ?_⟩
        apply Finset.card_pos.mpr
        exact ⟨t, Finset.mem_inter.mpr
          ⟨(mem_get_reachable delta p t).mpr ⟨htg, hpt⟩, htF⟩⟩

/-! ### Reference epsilon-NFA semantics and language preservation -/

/-- Modelled from the spec: a run of the original automaton, reading the
input left to right, where a lambda (`None`) arrow consumes no input.  This
is the reference epsilon-NFA semantics the spec's invariant refers to. -/
inductive NfaRun (delta : TransMap S A) : S → List A → S → Prop
  | nil (q : S) : NfaRun delta q [] q
  | eps {q p : S} {s : List A} {r : S} :
      p ∈ delta.val (q, none) → NfaRun delta p s r → NfaRun delta q s r
  | sym {q p : S} {c : A} {s : List A} {r : S} :
      p ∈ delta.val (q, some c) → NfaRun delta p s r → NfaRun delta q (c :: s) r

/-- Modelled from the spec: the epsilon-NFA accepts `s` from `q` iff some run
over `s` ends in an accept state. -/
def acceptsEpsNfa (delta : TransMap S A) (F : Finset S) (q : S) (s : List A) : Prop :=
  ∃ r, NfaRun delta q s r ∧ r ∈ F

/-- A run that uses only symbol arrows (what `eval_nfa` simulates). -/
inductive SymRun (delta : TransMap S A) : S → List A → S → Prop
  | nil (q : S) : SymRun delta q [] q
  | sym {q p : S} {c : A} {s : List A} {r : S} :
      p ∈ delta.val (q, some c) → SymRun delta p s r → SymRun delta q (c :: s) r

/-- The subset simulation computes exactly the states reachable by a
symbol-only run from some seed state. -/
theorem evalActive_mem (delta : TransMap S A) :
    ∀ (s : List A) (X : Finset S) (y : S),
      y ∈ evalActive delta X s ↔ ∃ x ∈ X, SymRun delta x s y := by
  intro s
  induction s with
  | nil =>
      intro X y
      constructor
      · intro hy; exact ⟨y, hy, SymRun.nil y⟩
      · rintro ⟨x, hx, hrun⟩
        cases hrun
        exact hx
  | cons c cs ih =>
      intro X y
      have hstep : evalActive delta X (c :: cs) = evalActive delta (nfaStep delta X c) cs := rfl
      rw [hstep, ih]
      constructor
      · rintro ⟨p, hp, hrun⟩
        obtain ⟨x, hx, hval⟩ := (mem_nfaStep delta X c p).mp hp
        exact ⟨x, hx, SymRun.sym hval hrun⟩
      · rintro ⟨x, hx, hrun⟩
        cases hrun with
        | sym hval hrun' =>
            exact ⟨_, (mem_nfaStep delta X c _).mpr ⟨x, hx, hval⟩, hrun'⟩

theorem nfaRun_append_eps {delta : TransMap S A} {q p r : S} {s : List A}
    (h : NfaRun delta q s p) : EpsEdge delta p r → NfaRun delta q s r := by
  induction h with
  | nil q => exact fun he => NfaRun.eps he (NfaRun.nil r)
  | eps h1 _ ih => exact fun he => NfaRun.eps h1 (ih he)
  | sym h1 _ ih => exact fun he => NfaRun.sym h1 (ih he)

theorem nfaRun_of_epsReach {delta : TransMap S A} {q t : S}
    (h : EpsReach delta q t) : NfaRun delta q [] t := by
  induction h with
  | refl => exact NfaRun.nil q
  | tail _ hedge ih => exact nfaRun_append_eps ih hedge

theorem nfaRun_eps_prefix {delta : TransMap S A} {q t r : S} {s : List A}
    (hre : EpsReach delta q t) (h : NfaRun delta t s r) : NfaRun delta q s r := by
  induction hre using Relation.ReflTransGen.head_induction_on with
  | refl => exact h
  | head hedge _ ih => exact NfaRun.eps hedge ih

/-- Forward direction: a symbol-only run of the reduced automaton ending in
the new accept set is matched by a run of the original automaton. -/
theorem symRun_reduced_to_eps {delta : TransMap S A} {F : Finset S} :
    ∀ {q r : S} {s : List A},
      SymRun (reduce_nfa_lambdas delta F).1 q s r →
      r ∈ (reduce_nfa_lambdas delta F).2 →
      ∃ r2, NfaRun delta q s r2 ∧ r2 ∈ F := by
  intro q r s h
  induction h with
  | nil q =>
      intro hrF
      obtain ⟨t, hre, htF⟩ := (mem_reduceF delta F q).mp hrF
      exact ⟨t, nfaRun_of_epsReach hre, htF⟩
  | sym hstep _ ih =>
      intro hrF
      obtain ⟨r2, hr2, hr2F⟩ := ih hrF
      obtain ⟨t, hre, hy⟩ := (mem_reduceVal delta _ _ _).mp hstep
      exact ⟨r2, nfaRun_eps_prefix hre (NfaRun.sym hy hr2), hr2F⟩

/-- Backward direction: a run of the original automaton ending in `F` is
matched by a symbol-only run of the reduced automaton ending in the new
accept set. -/
theorem eps_to_symRun_reduced {delta : TransMap S A} {F : Finset S} :
    ∀ {q r : S} {s : List A},
      NfaRun delta q s r → r ∈ F →
      ∃ r2, SymRun (reduce_nfa_lambdas delta F).1 q s r2 ∧
        r2 ∈ (reduce_nfa_lambdas delta F).2 := by
  intro q r s h
  induction h with
  | nil q =>
      intro hrF
      exact ⟨q, SymRun.nil q,
        (mem_reduceF delta F q).mpr ⟨q, Relation.ReflTransGen.refl, hrF⟩⟩
  | eps hedge _ ih =>
      intro hrF
      obtain ⟨r2, hr2, hr2F⟩ := ih hrF
      cases hr2 with
      | nil =>
          obtain ⟨t, hre, htF⟩ := (mem_reduceF delta F _).mp hr2F
          exact ⟨_, SymRun.nil _,
            (mem_reduceF delta F _).mpr ⟨t, Relation.ReflTransGen.head hedge hre, htF⟩⟩
      | sym hstep hrun' =>
          obtain ⟨t, hre, hy⟩ := (mem_reduceVal delta _ _ _).mp hstep
          refine ⟨r2, SymRun.sym ?_ hrun', hr2F⟩
          exact (mem_reduceVal delta _ _ _).mpr
            ⟨t, Relation.ReflTransGen.head hedge hre, hy⟩
  | sym hstep _ ih =>
      intro hrF
      obtain ⟨r2, hr2, hr2F⟩ := ih hrF
      refine ⟨r2, SymRun.sym ?_ hr2, hr2F⟩
      exact (mem_reduceVal delta _ _ _).mpr ⟨_, Relation.ReflTransGen.refl, hstep⟩

/-- Language preservation of the lambda elimination, for every start state. -/
theorem reduced_eval_iff (delta : TransMap S A) (F : Finset S) (q : S)
    (s : List A) (verbose : Bool) :
    ((eval_nfa s q (reduce_nfa_lambdas delta F).1 (reduce_nfa_lambdas delta F).2
        verbose).1 = true)
      ↔ acceptsEpsNfa delta F q s := by
  rw [eval_nfa_fst, decide_eq_true_eq, Finset.card_pos]
  constructor
  · rintro ⟨r, hr⟩
    obtain ⟨hra, hrF⟩ := Finset.mem_inter.mp hr
    obtain ⟨x, hx, hrun⟩ := (evalActive_mem _ _ _ _).mp hra
    rcases Finset.mem_singleton.mp hx with rfl
    exact symRun_reduced_to_eps hrun hrF
  · rintro ⟨r, hrun, hrF⟩
    obtain ⟨r2, hr2, hr2F⟩ := eps_to_symRun_reduced hrun hrF
    refine ⟨r2, Finset.mem_inter.mpr ⟨?_, hr2F⟩⟩
    exact (evalActive_mem _ _ _ _).mpr ⟨q, Finset.mem_singleton_self q, hr2⟩

/-! ### `infix2postfix` (src/mygrep.py lines 121-184)

The source works on Python strings; we embed a string as a `List Char` and
the token strings as the inductive `Tok` (`"c_i"` becomes
`Tok.operand c i`; the escaped-operator operand `"*_3"` is
`Tok.operand star-char 3`, structurally distinct from the operator token,
just as the string `"*_3"` differs from `"*"`).  The index arithmetic of the
`while i < len(expr)` loop maps to list suffixes: `expr[i]` is the head of
the current suffix, `i < len(expr)-1` is "the tail is nonempty", the escape
`i += 1` drops one more character, and `Option.none` models the IndexError
raised by `c = expr[i]` when a trailing backslash pushes the cursor past the
end of the string. -/

inductive Tok where
  | star | concat | union | lparen | rparen
  | operand (c : Char) (idx : Nat)
deriving DecidableEq

/-- Which operator token a member of `"*|()"` turns into. -/
def opTok (ch : Char) : Tok :=
  if ch = '*' then Tok.star
  else if ch = '|' then Tok.union
  else if ch = '(' then Tok.lparen
  else Tok.rparen

/-- `i < len(expr)-1 and expr[i+1] not in "*|)"`, seen from the suffix after
the operand character. -/
def needDot : List Char → Bool
  | [] => false
  | c :: _ => !(c = '*' || c = '|' || c = ')')

/-- Step 1 of `infix2postfix`: tokenize, escape, tag operands with their
occurrence index `idx`, and insert the implicit concatenation dots. -/
def lexLoop : List Char → Nat → Option (List Tok)
  | [], _ => some []
  | ch :: rest, idx =>
    if ch = '*' ∨ ch = '|' ∨ ch = '(' ∨ ch = ')' then
      -- operators pass through; a `*` with more input gets a dot after it
      (fun t => opTok ch ::
        ((if ch = '*' ∧ rest ≠ [] then [Tok.concat] else []) ++ t))
        <$> lexLoop rest idx
    else if ch = '\\' then
      match rest with
      | [] => none  -- `i += 1` ran past the end: IndexError at `c = expr[i]`
      | c :: rest2 =>
          (fun t => Tok.operand c idx ::
            ((if needDot rest2 then [Tok.concat] else []) ++ t))
            <$> lexLoop rest2 (idx + 1)
    else
      (fun t => Tok.operand ch idx ::
        ((if needDot rest then [Tok.concat] else []) ++ t))
        <$> lexLoop rest (idx + 1)

/-- `precedence = {"*":2, ".":1, "|":0}`; only ever consulted on these three
tokens (the branch structure of the loop guards every lookup). -/
def prec : Tok → Nat
  | Tok.star => 2
  | Tok.concat => 1
  | _ => 0

/-- The inner `while` of the operator branch: pop pending operators of
greater-or-equal precedence, stopping at `(`.  Returns (popped, rest). -/
def popOps (x : Tok) : List Tok → List Tok × List Tok
  | [] => ([], [])
  | t :: ts =>
      if t ≠ Tok.lparen ∧ prec x ≤ prec t then
        let r := popOps x ts
        (t :: r.1, r.2)
      else ([], t :: ts)

/-- The inner `while` of the `)` branch: pop pending tokens down to the first
`(`.  Returns (popped, rest); `rest` is empty iff no `(` was pending. -/
def popToParen : List Tok → List Tok × List Tok
  | [] => ([], [])
  | t :: ts =>
      if t = Tok.lparen then ([], t :: ts)
      else
        let r := popToParen ts
        (t :: r.1, r.2)

/-- Step 2 and step 3 of `infix2postfix`: the shunting-yard loop over the
token list with the pending-operator `stack` (head = top), followed by
popping the remaining stack into the output.  `none` models the IndexError
of `stack.pop()` on an empty stack (a `)` with no pending `(`). -/
def shuntLoop : List Tok → List Tok → Option (List Tok)
  | [], stack => some stack
  | x :: xs, stack =>
      match x with
      | Tok.lparen => shuntLoop xs (Tok.lparen :: stack)
      | Tok.rparen =>
          let r := popToParen stack
          match r.2 with
          | Tok.lparen :: stack' => (fun t => r.1 ++ t) <$> shuntLoop xs stack'
          | _ => none
      | Tok.operand c i => (fun t => Tok.operand c i :: t) <$> shuntLoop xs stack
      | op =>
          let r := popOps op stack
          (fun t => r.1 ++ t) <$> shuntLoop xs (op :: r.2)

/-- `infix2postfix(expr)`: tokenize then shunt; `none` models an uncaught
IndexError. -/
def regexToPost (expr : List Char) : Option (List Tok) :=
  (lexLoop expr 0).bind fun toks => shuntLoop toks []

/-- One unfolding of the tokenizer on a nonempty input. -/
theorem lexLoop_cons_eq (ch : Char) (rest : List Char) (idx : Nat) :
    lexLoop (ch :: rest) idx =
      if ch = '*' ∨ ch = '|' ∨ ch = '(' ∨ ch = ')' then
        (fun t => opTok ch ::
          ((if ch = '*' ∧ rest ≠ [] then [Tok.concat] else []) ++ t))
          <$> lexLoop rest idx
      else if ch = '\\' then
        match rest with
        | [] => none
        | c :: rest2 =>
            (fun t => Tok.operand c idx ::
              ((if needDot rest2 then [Tok.concat] else []) ++ t))
              <$> lexLoop rest2 (idx + 1)
      else
        (fun t => Tok.operand ch idx ::
          ((if needDot rest then [Tok.concat] else []) ++ t))
          <$> lexLoop rest (idx + 1) := by
  rw [lexLoop.eq_def]

/-- Unfolding the escape branch of the tokenizer. -/
theorem lexLoop_backslash_cons (c : Char) (rest2 : List Char) (idx : Nat) :
    lexLoop ('\\' :: c :: rest2) idx
      = (fun t => Tok.operand c idx ::
          ((if needDot rest2 then [Tok.concat] else []) ++ t))
          <$> lexLoop rest2 (idx + 1) := rfl

/-- An input that is nothing but an odd run of backslashes makes the
tokenizer raise: the last backslash is an escape with nothing after it. -/
theorem lexLoop_replicate_none :
    ∀ (k : Nat), k % 2 = 1 → ∀ (idx : Nat),
      lexLoop (List.replicate k '\\') idx = none := by
  intro k
  induction k using Nat.strong_induction_on with
  | _ k ih =>
      match k with
      | 0 => intro h _; simp at h
      | 1 => intro _ idx; rfl
      | m + 2 =>
          intro h idx
          have hm : m % 2 = 1 := by omega
          have hrep : List.replicate (m + 2) '\\'
              = '\\' :: '\\' :: List.replicate m '\\' := rfl
          rw [hrep, lexLoop_backslash_cons, ih m (by omega) hm (idx + 1)]
          rfl

/-- Processing a prefix that does not end in a backslash cannot rescue a
failing tail: the cursor walks through the prefix (one or two characters at a
time, never crossing into the tail via an escape) and then fails in the
tail. -/
theorem lexLoop_none_extend (t : List Char) (ht : ∀ idx, lexLoop t idx = none) :
    ∀ (n : Nat) (u : List Char), u.length = n →
      (u = [] ∨ u.getLast? ≠ some '\\') →
      ∀ idx, lexLoop (u ++ t) idx = none := by
  intro n
  induction n using Nat.strong_induction_on with
  | _ n ihn =>
      intro u hlen hu idx
      match u with
      | [] => exact ht idx
      | ch :: u' =>
          have hu' : u' = [] ∨ u'.getLast? ≠ some '\\' := by
            match u' with
            | [] => exact Or.inl rfl
            | y :: u'' =>
                refine Or.inr ?_
                rcases hu with hu | hu
                · cases hu
                · rw [List.getLast?_cons_cons] at hu
                  exact hu
          by_cases hop : ch = '*' ∨ ch = '|' ∨ ch = '(' ∨ ch = ')'
          · have hstep : lexLoop ((ch :: u') ++ t) idx
                = (fun tl => opTok ch ::
                    ((if ch = '*' ∧ (u' ++ t) ≠ [] then [Tok.concat] else []) ++ tl))
                    <$> lexLoop (u' ++ t) idx := by
              show lexLoop (ch :: (u' ++ t)) idx = _
              rw [lexLoop_cons_eq, if_pos hop]
            rw [hstep, ihn u'.length (by simp [← hlen]) u' rfl hu' idx]
            rfl
          · by_cases hbs : ch = '\\'
            · subst hbs
              match u' with
              | [] =>
                  exfalso
                  rcases hu with hu | hu
                  · cases hu
                  · exact hu rfl
              | c :: u'' =>
                  have hu'' : u'' = [] ∨ u''.getLast? ≠ some '\\' := by
                    match u'' with
                    | [] => exact Or.inl rfl
                    | z :: u3 =>
                        refine Or.inr ?_
                        rcases hu with hu | hu
                        · cases hu
                        · rw [List.getLast?_cons_cons, List.getLast?_cons_cons] at hu
                          exact hu
                  have : ('\\' :: c :: u'') ++ t = '\\' :: c :: (u'' ++ t) := rfl
                  rw [this, lexLoop_backslash_cons,
                    ihn u''.length (by simp [← hlen]; omega) u'' rfl hu'' (idx + 1)]
                  rfl
            · have hstep : lexLoop ((ch :: u') ++ t) idx
                  = (fun tl => Tok.operand ch idx ::
                      ((if needDot (u' ++ t) then [Tok.concat] else []) ++ tl))
                      <$> lexLoop (u' ++ t) (idx + 1) := by
                show lexLoop (ch :: (u' ++ t)) idx = _
                rw [lexLoop_cons_eq, if_neg hop, if_neg hbs]
              rw [hstep, ihn u'.length (by simp [← hlen]) u' rfl hu' (idx + 1)]
              rfl

/-- Balance check on the token list: scanning left to right with a counter
of pending `(`, every `)` must find a positive counter.  `parenOk 0 toks`
says every `)` in `toks` has a matching earlier `(` (extra `(` allowed). -/
def parenOk : Nat → List Tok → Bool
  | _, [] => true
  | k, Tok.lparen :: xs => parenOk (k + 1) xs
  | k, Tok.rparen :: xs =>
      match k with
      | 0 => false
      | k' + 1 => parenOk k' xs
  | k, Tok.star :: xs => parenOk k xs
  | k, Tok.concat :: xs => parenOk k xs
  | k, Tok.union :: xs => parenOk k xs
  | k, Tok.operand _ _ :: xs => parenOk k xs

theorem popOps_count (x : Tok) :
    ∀ (st : List Tok), ((popOps x st).2).count Tok.lparen = st.count Tok.lparen := by
  intro st
  induction st with
  | nil => rfl
  | cons t ts ih =>
      rw [popOps]
      by_cases h : t ≠ Tok.lparen ∧ prec x ≤ prec t
      · rw [if_pos h]
        simp only []
        rw [ih, List.count_cons]
        have : ¬(t = Tok.lparen) := h.1
        simp [this]
      · rw [if_neg h]

theorem popToParen_spec :
    ∀ (st : List Tok), 0 < st.count Tok.lparen →
      ∃ stack', (popToParen st).2 = Tok.lparen :: stack' ∧
        stack'.count Tok.lparen + 1 = st.count Tok.lparen := by
  intro st
  induction st with
  | nil => intro h; simp at h
  | cons t ts ih =>
      intro h
      rw [popToParen]
      by_cases ht : t = Tok.lparen
      · subst ht
        rw [if_pos rfl]
        exact ⟨ts, rfl, by simp [List.count_cons]⟩
      · rw [if_neg ht]
        have hts : 0 < ts.count Tok.lparen := by
          rw [List.count_cons] at h
          simpa [ht] using h
        obtain ⟨stack', h1, h2⟩ := ih hts
        refine ⟨stack', h1, ?_⟩
        rw [List.count_cons]
        simp [ht, h2]

theorem shuntLoop_rparen_eq (xs stack : List Tok) :
    shuntLoop (Tok.rparen :: xs) stack =
      match (popToParen stack).2 with
      | Tok.lparen :: stack' => (fun t => (popToParen stack).1 ++ t) <$> shuntLoop xs stack'
      | _ => none := rfl

/-- As long as every `)` seen so far has a pending `(` on the stack, the
shunting loop cannot fail: the only failure point is the unguarded
`stack.pop()` in the `)` branch. -/
theorem shuntLoop_isSome :
    ∀ (toks : List Tok) (k : Nat) (stack : List Tok),
      parenOk k toks = true → k ≤ stack.count Tok.lparen →
      (shuntLoop toks stack).isSome := by
  intro toks
  induction toks with
  | nil => intro k stack _ _; rfl
  | cons x xs ih =>
      intro k stack hok hk
      cases x with
      | lparen =>
          have hok' : parenOk (k + 1) xs = true := hok
          have : shuntLoop (Tok.lparen :: xs) stack
              = shuntLoop xs (Tok.lparen :: stack) := rfl
          rw [this]
          apply ih (k + 1) _ hok'
          simp [List.count_cons]
          omega
      | rparen =>
          match k with
          | 0 => exact Bool.noConfusion hok
          | k' + 1 =>
              have hok' : parenOk k' xs = true := hok
              have hpos : 0 < stack.count Tok.lparen := by omega
              obtain ⟨stack', h1, h2⟩ := popToParen_spec stack hpos
              rw [shuntLoop_rparen_eq, h1]
              simp only [Option.isSome_map]
              apply ih k' _ hok'
              omega
      | star =>
          have hok' : parenOk k xs = true := hok
          have : shuntLoop (Tok.star :: xs) stack
              = (fun t => (popOps Tok.star stack).1 ++ t)
                  <$> shuntLoop xs (Tok.star :: (popOps Tok.star stack).2) := rfl
          rw [this]
          simp only [Option.isSome_map]
          apply ih k _ hok'
          rw [List.count_cons]
          simp [popOps_count]
          omega
      | concat =>
          have hok' : parenOk k xs = true := hok
          have : shuntLoop (Tok.concat :: xs) stack
              = (fun t => (popOps Tok.concat stack).1 ++ t)
                  <$> shuntLoop xs (Tok.concat :: (popOps Tok.concat stack).2) := rfl
          rw [this]
          simp only [Option.isSome_map]
          apply ih k _ hok'
          rw [List.count_cons]
          simp [popOps_count]
          omega
      | union =>
          have hok' : parenOk k xs = true := hok
          have : shuntLoop (Tok.union :: xs) stack
              = (fun t => (popOps Tok.union stack).1 ++ t)
                  <$> shuntLoop xs (Tok.union :: (popOps Tok.union stack).2) := rfl
          rw [this]
          simp only [Option.isSome_map]
          apply ih k _ hok'
          rw [List.count_cons]
          simp [popOps_count]
          omega
      | operand c i =>
          have hok' : parenOk k xs = true := hok
          have : shuntLoop (Tok.operand c i :: xs) stack
              = (fun t => Tok.operand c i :: t) <$> shuntLoop xs stack := rfl
          rw [this]
          simp only [Option.isSome_map]
          exact ih k _ hok' hk

/-! ### Identity of the elimination on lambda-free automata -/

theorem reduce_id_of_eps_free (delta : TransMap S A) (F : Finset S)
    (h : ∀ k ∈ delta.dom, Prod.snd k ≠ (none : Option A)) :
    reduce_nfa_lambdas delta F = (delta, F) := by
  have hreach : ∀ st : S, get_reachable_lambdas st delta = ∅ := by
    intro st
    apply Finset.eq_empty_iff_forall_not_mem.mpr
    intro y hy
    obtain ⟨htg, -⟩ := (mem_get_reachable delta st y).mp hy
    obtain ⟨b, hb, -⟩ := Relation.TransGen.head'_iff.mp htg
    have hdom : (st, (none : Option A)) ∈ delta.dom := by
      by_contra hc
      rw [EpsEdge, delta.val_empty _ hc] at hb
      exact absurd hb (Finset.not_mem_empty b)
    exact (h _ hdom) rfl
  have hadded : reduceAdded delta = ∅ := by
    apply Finset.eq_empty_iff_forall_not_mem.mpr
    intro k hk
    obtain ⟨st, -, hk2⟩ := Finset.mem_biUnion.mp hk
    obtain ⟨other, hother, -⟩ := Finset.mem_biUnion.mp hk2
    rw [hreach st] at hother
    exact absurd hother (Finset.not_mem_empty other)
  have hdomeq : reduceDom delta = delta.dom := by
    unfold reduceDom
    rw [hadded, Finset.union_empty]
    exact Finset.filter_true_of_mem h
  have hFnew : reduceFNew delta F = ∅ := by
    apply Finset.eq_empty_iff_forall_not_mem.mpr
    intro x hx
    obtain ⟨-, hcard⟩ := Finset.mem_filter.mp hx
    rw [hreach x] at hcard
    simp at hcard
  have hval : reduceVal delta = delta.val := by
    funext k
    unfold reduceVal
    by_cases hk : k ∈ reduceDom delta
    · rw [if_pos hk, hreach k.1]
      simp
    · rw [if_neg hk, delta.val_empty]
      rw [hdomeq] at hk
      exact hk
  unfold reduce_nfa_lambdas
  rw [hFnew, Finset.union_empty]
  exact Prod.ext (TransMap.ext_core hdomeq hval) rfl

/-! ### The claims -/

/-- Modelled from the spec: the reference subset computation for an
epsilon-free automaton — start from `{q}`, replace the active set by the
union over active `p` of `delta[(p, c)]` (empty when the key is absent), and
accept iff the final active set intersects `F`. -/
def acceptsSpec (s : List A) (q : S) (delta : TransMap S A) (F : Finset S) : Bool :=
  decide (((s.foldl (fun act c => act.biUnion fun p => delta.val (p, some c))
    ({q} : Finset S)) ∩ F).Nonempty)

/-- C1: running `reduce_nfa_lambdas(delta, F)` and then
`eval_nfa(s, q, delta, F)` returns true exactly when the original
epsilon-containing automaton accepts `s` from `q` under the reference
epsilon-NFA semantics, for every choice of start state `q` (and either
setting of the verbose flag). -/
theorem c1_elimination_preserves_acceptance (delta : TransMap S A) (F : Finset S)
    (q : S) (s : List A) (verbose : Bool) :
    ((eval_nfa s q (reduce_nfa_lambdas delta F).1 (reduce_nfa_lambdas delta F).2
        verbose).1 = true)
      ↔ acceptsEpsNfa delta F q s :=
  reduced_eval_iff delta F q s verbose

/-- C2: `eval_nfa` returns exactly the result of the reference subset
computation (union of `delta[(p, c)]` with absent keys contributing nothing,
final intersection test against `F`), and an empty active set stays empty, so
the result is then reject. -/
theorem c2_eval_nfa_matches_reference (s : List A) (q : S) (delta : TransMap S A)
    (F : Finset S) (verbose : Bool) :
    (eval_nfa s q delta F verbose).1 = acceptsSpec s q delta F
      ∧ ∀ s' : List A, evalActive delta (∅ : Finset S) s' = ∅ := by
  constructor
  · have hfun : nfaStep delta
        = fun act c => act.biUnion fun p => delta.val (p, some c) := by
      funext act c
      exact nfaStep_eq_biUnion delta act c
    rw [eval_nfa_fst, acceptsSpec]
    apply decide_eq_decide.mpr
    rw [Finset.card_pos]
    unfold evalActive
    rw [hfun]
  · intro s'
    exact evalActive_empty delta s'

/-- C3: `get_reachable_lambdas(start, delta)` is exactly the set of states
reachable from `start` by one or more lambda arrows, with `start` itself
excluded even when a lambda cycle returns to it. -/
theorem c3_get_reachable_lambdas_correct (delta : TransMap S A) (start y : S) :
    y ∈ get_reachable_lambdas start delta
      ↔ (EpsReachPlus delta start y ∧ y ≠ start) :=
  mem_get_reachable delta start y

/-- C4: the worklist loop of `get_reachable_lambdas` terminates for every
transition function (lambda cycles included): the explicit fuel
`lambdaFuel delta start`, a bound on the total number of pops justified by
the visited-set guard, is never exhausted. -/
theorem c4_worklist_terminates (delta : TransMap S A) (start : S) :
    ∃ R, lambdaLoop delta (lambdaFuel delta start) ∅ [start] = some R :=
  Option.isSome_iff_exists.mp (lambdaLoop_start_isSome delta start)

/-- C5: after `reduce_nfa_lambdas`, no key of `delta` has the lambda symbol:
every `(state, None)` key was deleted and none was added. -/
theorem c5_no_lambda_keys_after_reduce (delta : TransMap S A) (F : Finset S)
    (st : S) : (st, (none : Option A)) ∉ (reduce_nfa_lambdas delta F).1.dom := by
  intro hc
  have hc' : (st, (none : Option A)) ∈ reduceDom delta := hc
  exact absurd rfl (Finset.mem_filter.mp hc').2

/-- C6: on an automaton with no lambda transitions, `reduce_nfa_lambdas`
leaves both `delta` and `F` exactly unchanged. -/
theorem c6_reduce_identity_on_lambda_free (delta : TransMap S A) (F : Finset S)
    (h : ∀ k ∈ delta.dom, Prod.snd k ≠ (none : Option A)) :
    reduce_nfa_lambdas delta F = (delta, F) :=
  reduce_id_of_eps_free delta F h

/-- A concrete lambda-free automaton over `Nat` states used as the witness
input for the identity property. -/
def exDeltaFree : TransMap Nat Nat :=
  TransMap.ofList [((0, some 0), {1}), ((1, some 1), {0, 1})]

theorem c6_witness :
    (∀ k ∈ exDeltaFree.dom, Prod.snd k ≠ (none : Option Nat))
      ∧ reduce_nfa_lambdas exDeltaFree ({1} : Finset Nat) = (exDeltaFree, {1}) :=
  ⟨by decide, c6_reduce_identity_on_lambda_free exDeltaFree {1} (by decide)⟩

/-- C7: `infix2postfix("a|b")` is `[a_0, b_1, |]`, `infix2postfix("ab")`
inserts a concatenation operator giving `[a_0, b_1, .]`, and the empty string
yields the empty token sequence. -/
theorem c7_concrete_conversions :
    regexToPost ['a', '|', 'b']
        = some [Tok.operand 'a' 0, Tok.operand 'b' 1, Tok.union]
      ∧ regexToPost ['a', 'b']
        = some [Tok.operand 'a' 0, Tok.operand 'b' 1, Tok.concat]
      ∧ regexToPost [] = some [] := by
  refine ⟨?_, ?_, rfl⟩ <;> decide

/-- C8 (counterexample): an unmatched `)` does raise — `infix2postfix(")")`
hits `stack.pop()` on an empty pending stack (IndexError, modelled `none`),
so it is not true that every unbalanced input silently returns a sequence. -/
theorem c8_counterexample : regexToPost [')'] = none := by decide

/-- C8 (amended): for inputs whose token sequence never has a `)` without a
pending `(` (in particular any input with only excess `(`), no error is
raised: the pending operators — leftover `(` included — are silently popped
into the returned postfix sequence.  A `)` with no matching `(` instead
raises an IndexError (see the counterexample). -/
theorem c8_amended_unmatched_lparen_silent (expr : List Char) (toks : List Tok)
    (hlex : lexLoop expr 0 = some toks) (hbal : parenOk 0 toks = true) :
    ∃ out, regexToPost expr = some out := by
  have hsome : (shuntLoop toks []).isSome :=
    shuntLoop_isSome toks 0 [] hbal (Nat.le_refl 0)
  rw [regexToPost, hlex, Option.some_bind]
  exact Option.isSome_iff_exists.mp hsome

theorem c8_witness :
    lexLoop ['(', 'a'] 0 = some [Tok.lparen, Tok.operand 'a' 0]
      ∧ parenOk 0 [Tok.lparen, Tok.operand 'a' 0] = true
      ∧ ∃ out, regexToPost ['(', 'a'] = some out :=
  ⟨by decide, by decide,
    c8_amended_unmatched_lparen_silent ['(', 'a'] [Tok.lparen, Tok.operand 'a' 0]
      (by decide) (by decide)⟩

/-- C9: an input whose final character is an unescaped backslash (an odd run
of trailing backslashes after a prefix not ending in a backslash) makes
`infix2postfix` fail with an index error (`none`) instead of returning a
token sequence: the escape advances the cursor past the end of the string. -/
theorem c9_trailing_backslash_errors (u : List Char) (k : Nat)
    (hu : u = [] ∨ u.getLast? ≠ some '\\') (hk : k % 2 = 1) :
    regexToPost (u ++ List.replicate k '\\') = none := by
  have hlex : lexLoop (u ++ List.replicate k '\\') 0 = none :=
    lexLoop_none_extend (List.replicate k '\\') (lexLoop_replicate_none k hk)
      u.length u rfl hu 0
  rw [regexToPost, hlex]
  rfl

theorem c9_witness :
    ((['a'] : List Char) = [] ∨ (['a'] : List Char).getLast? ≠ some '\\')
      ∧ 1 % 2 = 1
      ∧ regexToPost (['a'] ++ List.replicate 1 '\\') = none :=
  ⟨Or.inr (by decide), rfl,
    c9_trailing_backslash_errors ['a'] 1 (Or.inr (by decide)) rfl⟩

/-- C10: the `verbose` flag only controls the printed trace; the boolean
returned by `eval_nfa` is identical with and without it. -/
theorem c10_verbose_does_not_affect_result (s : List A) (q : S)
    (delta : TransMap S A) (F : Finset S) :
    (eval_nfa s q delta F true).1 = (eval_nfa s q delta F false).1 := by
  rw [eval_nfa_fst, eval_nfa_fst]

end MyGrep
